import Mathlib

/-!
# The `tensile` HTTP multiplexer (`mux.go`): embedding and verified properties

The development follows `src/mux.go`.  `cleanPath` calls `path.Clean` of the Go
standard library, which is embedded here from the library's algorithm (the
`lazybuf` write buffer and the scanning loop).

Conventions of the embedding:

* A Go `string` is a sequence of bytes.  It is represented by `List Char`, one
  `Char` per byte (`'/'` is byte 47, `'.'` is byte 46).  The code only compares
  bytes with `'/'` and `'.'` and copies them, so nothing depends on the numeric
  range of a byte; every theorem quantifies over all lists.
* A Go function that may fail to return normally (an index out of range, or a
  loop of the model running out of fuel) returns `Option`; `none` means "did not
  return a value".  Totality is proved separately (`cleanPath_returns`).
* Reads `s[i]` of a string inside a condition are written `s[i]? = some c`.  In
  every such place the Go code evaluates the read only under a guard that keeps
  `i` in range (`r < n`, `r+1 == n || ...`), where both forms agree.
-/

/-! ## Go strings and the `path` package -/

/-- A Go string: a sequence of bytes, one `Char` per byte. -/
abbrev GoString := List Char

namespace path

/-- Go's `make([]byte, n)`: a zeroed byte slice of length `n`. -/
def make (n : Nat) : List Char := List.replicate n (Char.ofNat 0)

/-- Go's builtin `copy(dst, src)`: overwrites the first `min (len dst) (len src)`
bytes of `dst`; the result is the new content of `dst`. -/
def copy (dst src : List Char) : List Char :=
  src.take dst.length ++ dst.drop src.length

/-- Go's slice expression `s[:w]`; out of range when `w > len s`. -/
def sliceTo (s : List Char) (w : Nat) : Option (List Char) :=
  if w ≤ s.length then some (s.take w) else none

/-- Go's indexed store `buf[i] = c`; out of range when `i ≥ len buf`. -/
def store (buf : List Char) (i : Nat) (c : Char) : Option (List Char) :=
  if i < buf.length then some (buf.set i c) else none

/-- The lazily constructed path buffer of Go's `path` package: `buf = none` is
the nil slice (nothing written differs from `s` so far). -/
structure lazybuf where
  s : GoString
  buf : Option (List Char)
  w : Nat
deriving DecidableEq

/-- `func (b *lazybuf) index(i int) byte`. -/
def lazybuf.index (b : lazybuf) (i : Nat) : Option Char :=
  match b.buf with
  | some buf => buf[i]?
  | none => b.s[i]?

/-- `func (b *lazybuf) append(c byte)`. -/
def lazybuf.append (b : lazybuf) (c : Char) : Option lazybuf :=
  match b.buf with
  | none =>
    if b.w < b.s.length ∧ b.s[b.w]? = some c then
      some { b with w := b.w + 1 }
    else
      match sliceTo b.s b.w with
      | none => none
      | some pre =>
        match store (copy (make b.s.length) pre) b.w c with
        | none => none
        | some buf => some { b with buf := some buf, w := b.w + 1 }
  | some buf =>
    match store buf b.w c with
    | none => none
    | some buf => some { b with buf := some buf, w := b.w + 1 }

/-- `func (b *lazybuf) string() string`. -/
def lazybuf.string (b : lazybuf) : Option GoString :=
  match b.buf with
  | none => sliceTo b.s b.w
  | some buf => sliceTo buf b.w

/-- The inner loop of the `..` case of `Clean`,
`for out.w > dotdot && out.index(out.w) != '/' { out.w-- }`,
as a function of the current `out.w`; the result is the final `out.w`. -/
def Clean.backtrack (out : lazybuf) (dotdot : Nat) : Nat → Option Nat
  | 0 => some 0
  | w + 1 =>
    if w + 1 > dotdot then
      match out.index (w + 1) with
      | none => none
      | some c => if c ≠ '/' then Clean.backtrack out dotdot w else some (w + 1)
    else some (w + 1)

/-- The element copy loop of `Clean`,
`for ; r < n && path[r] != '/'; r++ { out.append(path[r]) }`;
the result is the final `r` and buffer. -/
def Clean.copyElement (path : GoString) : Nat → Nat → lazybuf → Option (Nat × lazybuf)
  | 0, r, out =>
    if r < path.length ∧ path[r]? ≠ some '/' then none else some (r, out)
  | fuel + 1, r, out =>
    if r < path.length ∧ path[r]? ≠ some '/' then
      match path[r]? with
      | none => none
      | some c =>
        match out.append c with
        | none => none
        | some out1 => Clean.copyElement path fuel (r + 1) out1
    else some (r, out)

/-- The main loop `for r < n { switch { ... } }` of `Clean`, on the loop state
`r`, `out`, `dotdot`. -/
def Clean.loop (path : GoString) (rooted : Bool) :
    Nat → Nat → lazybuf → Nat → Option lazybuf
  | 0, r, out, _ => if r < path.length then none else some out
  | fuel + 1, r, out, dotdot =>
    if r < path.length then
      if path[r]? = some '/' then
        -- empty path element
        Clean.loop path rooted fuel (r + 1) out dotdot
      else if path[r]? = some '.' ∧ (r + 1 = path.length ∨ path[r + 1]? = some '/') then
        -- . element
        Clean.loop path rooted fuel (r + 1) out dotdot
      else if path[r]? = some '.' ∧ path[r + 1]? = some '.' ∧
          (r + 2 = path.length ∨ path[r + 2]? = some '/') then
        -- .. element: remove to last /
        if out.w > dotdot then
          -- can backtrack
          match Clean.backtrack out dotdot (out.w - 1) with
          | none => none
          | some w => Clean.loop path rooted fuel (r + 2) { out with w := w } dotdot
        else if rooted = false then
          -- cannot backtrack, but not rooted, so append .. element.
          match (if out.w > 0 then out.append '/' else some out) with
          | none => none
          | some out1 =>
            match out1.append '.' with
            | none => none
            | some out2 =>
              match out2.append '.' with
              | none => none
              | some out3 => Clean.loop path rooted fuel (r + 2) out3 out3.w
        else
          Clean.loop path rooted fuel (r + 2) out dotdot
      else
        -- real path element. add slash if needed
        match (if (rooted = true ∧ out.w ≠ 1) ∨ (rooted = false ∧ out.w ≠ 0)
            then out.append '/' else some out) with
        | none => none
        | some out1 =>
          -- copy element
          match Clean.copyElement path path.length r out1 with
          | none => none
          | some (r1, out2) => Clean.loop path rooted fuel r1 out2 dotdot
    else some out

/-- `func Clean(path string) string` of Go's `path` package. -/
def Clean (path : GoString) : Option GoString :=
  if path = [] then some ['.']
  else
    let rooted : Bool := decide (path[0]? = some '/')
    let n := path.length
    let out : lazybuf := { s := path, buf := none, w := 0 }
    match (if rooted = true then (out.append '/').map (fun o => (o, 1, 1))
        else some (out, 0, 0)) with
    | none => none
    | some (out, r, dotdot) =>
      match Clean.loop path rooted n r out dotdot with
      | none => none
      | some out =>
        -- Turn empty string into "."
        if out.w = 0 then some ['.'] else out.string

end path

/-! ## net/http: the collaborators `mux.go` uses -/

namespace http

/-- The fields of `*http.Request` that the multiplexer reads: the request-URI,
the protocol version and `URL.Path`.  `Values` stands for the request-scoped
values a matcher may attach to the request it returns. -/
structure Request where
  RequestURI : GoString
  ProtoMajor : Int
  ProtoMinor : Int
  Path : GoString
  Values : List (GoString × GoString)
deriving DecidableEq

/-- `func (r *Request) ProtoAtLeast(major, minor int) bool`. -/
def Request.ProtoAtLeast (r : Request) (major minor : Int) : Bool :=
  decide (r.ProtoMajor > major ∨ (r.ProtoMajor = major ∧ r.ProtoMinor ≥ minor))

/-- One call received by an `http.ResponseWriter`. -/
inductive Call where
  | HeaderSet (key value : GoString)
  | WriteHeader (code : Nat)
  | Write (data : GoString)
deriving DecidableEq

/-- An `http.ResponseWriter`, observed through the calls made on it so far,
oldest first. -/
abbrev ResponseWriter := List Call

/-- `w.Header().Set(key, value)`. -/
def ResponseWriter.HeaderSet (w : ResponseWriter) (key value : GoString) : ResponseWriter :=
  w ++ [Call.HeaderSet key value]

/-- `w.WriteHeader(code)`. -/
def ResponseWriter.WriteHeader (w : ResponseWriter) (code : Nat) : ResponseWriter :=
  w ++ [Call.WriteHeader code]

/-- `w.Write(data)`. -/
def ResponseWriter.Write (w : ResponseWriter) (data : GoString) : ResponseWriter :=
  w ++ [Call.Write data]

/-- An `http.Handler`: `ServeHTTP(w, r)` as the effect it has on `w`. -/
abbrev Handler := ResponseWriter → Request → ResponseWriter

/-- `http.StatusBadRequest`. -/
def StatusBadRequest : Nat := 400

/-- `http.StatusNotFound`. -/
def StatusNotFound : Nat := 404

/-- `func Error(w ResponseWriter, error string, code int)`. -/
def Error (w : ResponseWriter) (error : GoString) (code : Nat) : ResponseWriter :=
  (((w.HeaderSet "Content-Type".toList "text/plain; charset=utf-8".toList).HeaderSet
    "X-Content-Type-Options".toList "nosniff".toList).WriteHeader code).Write (error ++ ['\n'])

/-- `func NotFound(w ResponseWriter, r *Request)`. -/
def NotFound (w : ResponseWriter) (_r : Request) : ResponseWriter :=
  Error w "404 page not found".toList StatusNotFound

/-- `func NotFoundHandler() Handler`. -/
def NotFoundHandler : Handler := NotFound

end http

/-! ## The multiplexer (`mux.go`) -/

namespace tensile

/-- `func cleanPath(p string) string` (mux.go). -/
def cleanPath (p : GoString) : Option GoString :=
  if p = [] then some ['/']
  else
    let p := if p[0]? ≠ some '/' then '/' :: p else p
    match path.Clean p with
    | none => none
    | some np =>
      if p[p.length - 1]? = some '/' ∧ np ≠ ['/'] then some (np ++ ['/']) else some np

/-- A Go call either returns a value or panics with a value. -/
inductive Outcome (α : Type) where
  | returned (a : α)
  | panicked (v : GoString)

/-- The declarations of the package that `mux.go` uses and that live in other
files (`node`, `Entry`, `newEntry`, `node.add`, `node.match`), as parameters.
`add` gives the node after the call and the panic value if it panicked;
`match_` receives the possibly nil receiver. -/
structure Trie (node Entry : Type) where
  new : node
  newEntry : GoString → http.Handler → Entry
  h : Entry → http.Handler
  add : node → GoString → Entry → node × Option GoString
  match_ : Option node → GoString → http.Request → Option Entry × http.Request

/-- An operation on the `sync.RWMutex` of a `Mux`. -/
inductive MutexOp where
  | Lock
  | Unlock
  | RLock
  | RUnlock
deriving DecidableEq

/-- `type Mux struct`: `mu` is observed through the operations performed on it,
oldest first; `m = none` is the nil pointer. -/
structure Mux (node : Type) where
  mu : List MutexOp
  m : Option node
  middleware : List (http.Handler → http.Handler)

/-- `func New() *Mux`. -/
def New {node : Type} : Mux node := { mu := [], m := none, middleware := [] }

/-- One operation on `mux.mu`. -/
def Mux.lockOp {node : Type} (mux : Mux node) (op : MutexOp) : Mux node :=
  { mux with mu := mux.mu ++ [op] }

/-- `func (mux *Mux) Handle(pattern string, h http.Handler) *Entry`: the outcome
of the call and the `Mux` after it.  `h = none` is the nil handler.  The deferred
`Unlock` runs on every way out. -/
def Mux.Handle {node Entry : Type} (T : Trie node Entry) (mux : Mux node)
    (pattern : GoString) (h : Option http.Handler) : Outcome Entry × Mux node :=
  let mux := mux.lockOp MutexOp.Lock
  if pattern = [] then
    (Outcome.panicked ("http: invalid pattern ".toList ++ pattern), mux.lockOp MutexOp.Unlock)
  else
    match h with
    | none => (Outcome.panicked "http: nil handler".toList, mux.lockOp MutexOp.Unlock)
    | some h =>
      -- if mux.m == nil { mux.m = new(node) }
      let n : node :=
        match mux.m with
        | none => T.new
        | some n => n
      let mux : Mux node := { mux with m := some n }
      match cleanPath pattern with
      | none => (Outcome.panicked "runtime error".toList, mux.lockOp MutexOp.Unlock)
      | some p =>
        let e := T.newEntry p h
        -- mux.m.add(p, e)
        let res := T.add n p e
        let mux : Mux node := { mux with m := some res.1 }
        match res.2 with
        | some v => (Outcome.panicked v, mux.lockOp MutexOp.Unlock)
        | none => (Outcome.returned e, mux.lockOp MutexOp.Unlock)

/-- `func (mux *Mux) HandleFunc(pattern string, h func(http.ResponseWriter, *http.Request)) *Entry`. -/
def Mux.HandleFunc {node Entry : Type} (T : Trie node Entry) (mux : Mux node)
    (pattern : GoString) (h : http.ResponseWriter → http.Request → http.ResponseWriter) :
    Outcome Entry × Mux node :=
  mux.Handle T pattern (some h)

/-- `func (mux *Mux) Handler(r *http.Request) (http.Handler, *http.Request)`:
the returned pair and the `Mux` after the call. -/
def Mux.Handler {node Entry : Type} (T : Trie node Entry) (mux : Mux node)
    (r : http.Request) : (http.Handler × http.Request) × Mux node :=
  let mux := mux.lockOp MutexOp.RLock
  match T.match_ mux.m r.Path r with
  | (some e, r1) => ((T.h e, r1), mux.lockOp MutexOp.RUnlock)
  | (none, _) => ((http.NotFoundHandler, r), mux.lockOp MutexOp.RUnlock)

/-- The loop `for i := len(mux.middleware) - 1; i >= 0; i-- { h = mux.middleware[i](h) }`
of `ServeHTTP`, with `k = i + 1`. -/
def Mux.ServeHTTP.wrap (middleware : List (http.Handler → http.Handler)) :
    (k : Nat) → k ≤ middleware.length → http.Handler → http.Handler
  | 0, _, h => h
  | k + 1, hk, h => Mux.ServeHTTP.wrap middleware k (Nat.le_of_succ_le hk) (middleware[k] h)

/-- `func (mux *Mux) ServeHTTP(w http.ResponseWriter, r *http.Request)`: the
response writer and the `Mux` after the call. -/
def Mux.ServeHTTP {node Entry : Type} (T : Trie node Entry) (mux : Mux node)
    (w : http.ResponseWriter) (r : http.Request) : http.ResponseWriter × Mux node :=
  if r.RequestURI = ['*'] then
    let w := if r.ProtoAtLeast 1 1 = true then w.HeaderSet "Connection".toList "close".toList
      else w
    (w.WriteHeader http.StatusBadRequest, mux)
  else
    let res := mux.Handler T r
    let h := Mux.ServeHTTP.wrap res.2.middleware res.2.middleware.length (Nat.le_refl _) res.1.1
    (h w res.1.2, res.2)

/-- `func (mux *Mux) Use(middleware ...func(http.Handler) http.Handler)`. -/
def Mux.Use {node : Type} (mux : Mux node)
    (middleware : List (http.Handler → http.Handler)) : Mux node :=
  { mux with middleware := mux.middleware ++ middleware }

end tensile

/-! ## Instances of the absent trie, and sample handlers -/

namespace tensile

/-- Modelled from the spec: the Route Entry (`Entry` and `newEntry` are not in
`mux.go`).  Spec, data model: an Entry "owns the registered canonical pattern,
the terminal handler". -/
structure SpecEntry where
  pattern : GoString
  h : http.Handler

/-- Modelled from the spec: the Route Trie (`node` is not in `mux.go`), by its
content, the registered entries in registration order.  Spec: "At most one Entry
per (canonical pattern) key". -/
abbrev SpecNode := List SpecEntry

/-- Modelled from the spec: `Insert(canonicalPattern, entry)` (`node.add` is not
in `mux.go`): "Fails if the (pattern, kind) slot is already occupied"; a failure
is fatal to the caller. -/
def specAdd (n : SpecNode) (p : GoString) (e : SpecEntry) : SpecNode × Option GoString :=
  if n.any (fun x => decide (x.pattern = p)) then (n, some "duplicate pattern".toList)
  else (n ++ [e], none)

/-- Modelled from the spec: the longest of the qualifying prefix entries
("the one with the longest pattern wins"). -/
def specLongest (es : List SpecEntry) : Option SpecEntry :=
  es.foldl (fun best e =>
    match best with
    | none => some e
    | some b => if b.pattern.length < e.pattern.length then some e else some b) none

/-- Modelled from the spec: `Match(requestPath)` (`node.match` is not in
`mux.go`), matching rules 1 to 3: an entry whose pattern equals the path wins;
otherwise the longest pattern ending in `/` that is a prefix of the path; otherwise
nothing.  A trie without routes (also the nil receiver) returns nothing.  The
redirection rule of the spec is not modelled. -/
def specMatch (n : Option SpecNode) (path : GoString) (r : http.Request) :
    Option SpecEntry × http.Request :=
  let es := n.getD []
  match es.find? (fun e => decide (e.pattern = path)) with
  | some e => (some e, r)
  | none =>
    (specLongest (es.filter (fun e =>
      decide (e.pattern.getLast? = some '/') && e.pattern.isPrefixOf path)), r)

/-- Modelled from the spec: the trie operations of the package (absent from
`mux.go`) put together. -/
def specTrie : Trie SpecNode SpecEntry :=
  { new := [], newEntry := fun p h => { pattern := p, h := h }, h := SpecEntry.h,
    add := specAdd, match_ := specMatch }

/-- An instrumented trie that reports the key `match` is called with: the key is
returned as the entry, and the entry's handler writes it to the response. -/
def probeTrie : Trie Unit GoString :=
  { new := (), newEntry := fun p _ => p, h := fun key w _ => w.Write key,
    add := fun n _ _ => (n, none), match_ := fun _ key r => (some key, r) }

/-- A middleware that writes its name to the response before it invokes the inner
handler. -/
def logging (name : GoString) (inner : http.Handler) : http.Handler :=
  fun w r => inner (w.Write name) r

/-- A handler that writes its name to the response. -/
def named (name : GoString) : http.Handler := fun w _ => w.Write name

/-- A request for `path` over HTTP/`major`.`minor` whose request-URI is `uri`. -/
def request (uri : String) (major minor : Int) (path : String) : http.Request :=
  { RequestURI := uri.toList, ProtoMajor := major, ProtoMinor := minor, Path := path.toList,
    Values := [] }

end tensile

/-! ## Specification-level description of the canonical form -/

namespace tensile

/-- The path elements of a byte string: its maximal runs of non-`/` bytes. -/
def elems : List Char → List (List Char)
  | [] => []
  | c :: t =>
    if c = '/' then elems t
    else if t = [] ∨ t.head? = some '/' then [c] :: elems t
    else
      match elems t with
      | e :: es => (c :: e) :: es
      | [] => [[c]]

/-- One element applied to the stack of kept elements: `.` is dropped, `..`
removes the last kept element (nothing at the root), any other element is kept. -/
def step (stk : List (List Char)) (seg : List Char) : List (List Char) :=
  if seg = ['.'] then stk
  else if seg = ['.', '.'] then stk.dropLast
  else stk ++ [seg]

/-- Every kept element written with a leading `/`. -/
def body : List (List Char) → List Char
  | [] => []
  | seg :: rest => '/' :: seg ++ body rest

/-- The rooted path with the given elements; the root `/` when there are none. -/
def render (stk : List (List Char)) : List Char :=
  if stk = [] then ['/'] else body stk

/-- A kept element: non-empty and without `/`. -/
def IsElem (seg : List Char) : Prop := seg ≠ [] ∧ '/' ∉ seg

/-- A clean element: a kept element other than `.` and `..`. -/
def IsClean (seg : List Char) : Prop :=
  IsElem seg ∧ seg ≠ ['.'] ∧ seg ≠ ['.', '.']

/-- The elements kept after `.` and `..` have been resolved from the root. -/
def kept (s : List Char) : List (List Char) := (elems s).foldl step []

/-- The canonical form in closed form: the kept elements rendered from the root,
with a final `/` when the input ends in `/` and some element is kept. -/
def canon (s : List Char) : List Char :=
  if s.getLast? = some '/' ∧ kept s ≠ [] then render (kept s) ++ ['/'] else render (kept s)

end tensile

/-! ## Abstraction of the write buffer and the loop invariant -/

namespace path

open tensile

/-- The bytes a `lazybuf` holds: the backing array up to `w`. -/
def lazybuf.contents (b : lazybuf) : List Char := (b.buf.getD b.s).take b.w

/-- Shape invariant of the buffer while cleaning `p`: it reads from `p`, an
allocated array has the length of `p`, and `w` is within it. -/
def lazybuf.Wf (p : GoString) (b : lazybuf) : Prop :=
  b.s = p ∧ (∀ a, b.buf = some a → a.length = p.length) ∧ b.w ≤ p.length

/-- Loop invariant of `Clean` on a rooted path `p`, with `stk` the stack of
elements kept so far. -/
def Clean.Inv (p : GoString) (r : Nat) (out : lazybuf) (stk : List (List Char)) : Prop :=
  out.Wf p ∧ out.w ≤ r ∧
  (out.w = r → p.drop r = [] ∨ (p.drop r).head? = some '/' ∨ r = 1) ∧
  out.contents = render stk ∧ ∀ seg ∈ stk, IsElem seg

end path

/-! ## The write buffer -/

namespace path

open tensile

theorem take_succ_set (l : List Char) (i : Nat) (c : Char) (h : i < l.length) :
    (l.set i c).take (i + 1) = l.take i ++ [c] := by
  rw [List.take_succ, List.set_take, List.set_eq_of_length_le (by simp)]
  simp [List.getElem?_set, h]

theorem lazybuf.append_spec (p : GoString) (b : lazybuf) (c : Char)
    (hwf : b.Wf p) (hw : b.w < p.length) :
    ∃ b1, b.append c = some b1 ∧ b1.Wf p ∧ b1.w = b.w + 1 ∧
      b1.contents = b.contents ++ [c] := by
  obtain ⟨hs, hbuf, _⟩ := hwf
  rcases b with ⟨s, buf, w⟩
  simp only at hs hbuf hw
  subst hs
  cases buf with
  | none =>
    by_cases hc : w < s.length ∧ s[w]? = some c
    · refine ⟨⟨s, none, w + 1⟩, ?_, ⟨rfl, by simp, by simpa using hw⟩, rfl, ?_⟩
      · simp [lazybuf.append, hc]
      · simp [lazybuf.contents, List.take_succ, hc.2]
    · have hlen : (copy (make s.length) (s.take w)).length = s.length := by
        simp [copy, make]
      have hst : store (copy (make s.length) (s.take w)) w c
          = some ((copy (make s.length) (s.take w)).set w c) := by
        simp [store, hlen, hw]
      refine ⟨⟨s, some ((copy (make s.length) (s.take w)).set w c), w + 1⟩, ?_,
        ⟨rfl, by simp [hlen], by simpa using hw⟩, rfl, ?_⟩
      · simp only [lazybuf.append, hc, if_false, sliceTo, Nat.le_of_lt hw, if_true, hst]
      · simp only [lazybuf.contents, Option.getD_some, Option.getD_none]
        rw [take_succ_set _ _ _ (by rw [hlen]; exact hw)]
        congr 1
        simp [copy, make, Nat.le_of_lt hw]
  | some a =>
    have ha : a.length = s.length := hbuf a rfl
    refine ⟨⟨s, some (a.set w c), w + 1⟩, ?_, ⟨rfl, by simp [ha], by simpa using hw⟩, rfl, ?_⟩
    · simp [lazybuf.append, store, ha, hw]
    · simp only [lazybuf.contents, Option.getD_some]
      exact take_succ_set _ _ _ (by rw [ha]; exact hw)

theorem lazybuf.index_spec (b : lazybuf) (i : Nat) (hi : i < b.w) :
    b.index i = b.contents[i]? := by
  rcases b with ⟨s, buf, w⟩
  cases buf <;> simp [lazybuf.index, lazybuf.contents, List.getElem?_take, hi]

theorem lazybuf.string_spec (p : GoString) (b : lazybuf) (hwf : b.Wf p) :
    b.string = some b.contents := by
  obtain ⟨hs, hbuf, hw⟩ := hwf
  rcases b with ⟨s, buf, w⟩
  simp only at hs hbuf hw
  subst hs
  cases buf with
  | none => simp [lazybuf.string, sliceTo, lazybuf.contents, hw]
  | some a => simp [lazybuf.string, sliceTo, lazybuf.contents, hbuf a rfl, hw]

theorem lazybuf.length_contents (p : GoString) (b : lazybuf) (hwf : b.Wf p) :
    b.contents.length = b.w := by
  obtain ⟨hs, hbuf, hw⟩ := hwf
  rcases b with ⟨s, buf, w⟩
  simp only at hs hbuf hw
  subst hs
  cases buf with
  | none => simp [lazybuf.contents, hw]
  | some a => simp [lazybuf.contents, hbuf a rfl, hw]

end path

/-! ## Elements and rendering -/

namespace tensile

theorem elems_slash (t : List Char) : elems ('/' :: t) = elems t := by
  simp [elems]

theorem elems_elem_append (seg t : List Char) (hseg : IsElem seg)
    (ht : t = [] ∨ t.head? = some '/') : elems (seg ++ t) = seg :: elems t := by
  obtain ⟨hne, hns⟩ := hseg
  induction seg with
  | nil => exact absurd rfl hne
  | cons c seg ih =>
    have hc : c ≠ '/' := fun h => hns (by simp [h])
    have hns1 : '/' ∉ seg := fun h => hns (List.mem_cons_of_mem _ h)
    cases seg with
    | nil =>
      show elems (c :: t) = [c] :: elems t
      rw [elems, if_neg hc, if_pos ht]
    | cons d seg =>
      have hd : d ≠ '/' := fun h => hns1 (by simp [h])
      have ih1 := ih (by simp) hns1
      simp only [List.cons_append] at ih1 ⊢
      rw [elems, if_neg hc, if_neg (by simp [hd]), ih1]

theorem span_elem (l : List Char) :
    ∃ seg t, l = seg ++ t ∧ '/' ∉ seg ∧ (t = [] ∨ t.head? = some '/') ∧
      (∀ c l1, l = c :: l1 → c ≠ '/' → seg ≠ []) := by
  induction l with
  | nil => exact ⟨[], [], rfl, by simp, Or.inl rfl, by simp⟩
  | cons c l ih =>
    by_cases hc : c = '/'
    · exact ⟨[], c :: l, rfl, by simp, Or.inr (by simp [hc]), fun c1 l1 h h1 => by
        simp only [List.cons.injEq] at h; exact absurd (h.1 ▸ hc) h1⟩
    · obtain ⟨seg, t, hl, hns, ht, _⟩ := ih
      refine ⟨c :: seg, t, by simp [hl], ?_, ht, by simp⟩
      intro h
      rcases List.mem_cons.1 h with h | h
      · exact hc h.symm
      · exact hns h

theorem body_append (a b : List (List Char)) : body (a ++ b) = body a ++ body b := by
  induction a with
  | nil => rfl
  | cons x a ih => simp [body, ih]

theorem render_nil : render [] = ['/'] := rfl

theorem render_snoc (stk : List (List Char)) (seg : List Char) :
    render (stk ++ [seg]) = body stk ++ '/' :: seg := by
  simp [render, body_append, body]

theorem render_of_ne_nil (stk : List (List Char)) (h : stk ≠ []) : render stk = body stk := by
  simp [render, h]

theorem length_body_ge (stk : List (List Char)) (h : stk ≠ [])
    (hel : ∀ seg ∈ stk, IsElem seg) : 2 ≤ (body stk).length := by
  cases stk with
  | nil => exact absurd rfl h
  | cons x stk =>
    have hx : x ≠ [] := (hel x (by simp)).1
    have : 1 ≤ x.length := List.length_pos.2 hx
    simp [body]; omega

theorem length_render_eq_one (stk : List (List Char)) (hel : ∀ seg ∈ stk, IsElem seg) :
    (render stk).length = 1 ↔ stk = [] := by
  constructor
  · intro h
    by_contra hne
    have := length_body_ge stk hne hel
    rw [render_of_ne_nil stk hne] at h
    omega
  · rintro rfl; rfl

end tensile

/-! ## The loops of `Clean` -/

namespace path

open tensile

theorem Clean.backtrack_spec (out : lazybuf) (dotdot lo : Nat) :
    ∀ w, lo ≤ w → dotdot ≤ lo →
      (∀ i, lo < i → i ≤ w → ∃ c, out.index i = some c ∧ c ≠ '/') →
      (lo = dotdot ∨ out.index lo = some '/') →
      Clean.backtrack out dotdot w = some lo := by
  intro w
  induction w with
  | zero =>
    intro h _ _ _
    have : lo = 0 := Nat.le_zero.1 h
    subst this; rfl
  | succ w ih =>
    intro hlo hdd hmid hstop
    rcases Nat.lt_or_ge lo (w + 1) with hlt | hge
    · obtain ⟨c, hc, hcs⟩ := hmid (w + 1) hlt (Nat.le_refl _)
      have hgt : w + 1 > dotdot := by omega
      simp only [Clean.backtrack, hgt, if_true, hc, hcs, ne_eq, not_false_eq_true]
      exact ih (by omega) hdd (fun i h1 h2 => hmid i h1 (by omega)) hstop
    · have heq : lo = w + 1 := by omega
      subst heq
      rcases hstop with h | h
      · have : ¬ (w + 1 > dotdot) := by omega
        simp only [Clean.backtrack, this, if_false]
      · by_cases hgt : w + 1 > dotdot
        · simp [Clean.backtrack, hgt, h]
        · simp only [Clean.backtrack, hgt, if_false]

theorem Clean.copyElement_spec (p : GoString) (seg t : List Char) (hns : '/' ∉ seg)
    (ht : t = [] ∨ t.head? = some '/') :
    ∀ (fuel r : Nat) (out : lazybuf), p.drop r = seg ++ t → seg.length ≤ fuel →
      out.Wf p → out.w + seg.length ≤ p.length →
      ∃ out1, Clean.copyElement p fuel r out = some (r + seg.length, out1) ∧ out1.Wf p ∧
        out1.w = out.w + seg.length ∧ out1.contents = out.contents ++ seg := by
  induction seg with
  | nil =>
    intro fuel r out hdrop _ hwf _
    have hstop : ¬ (r < p.length ∧ p[r]? ≠ some '/') := by
      rintro ⟨h1, h2⟩
      rw [List.nil_append] at hdrop
      rcases ht with ht | ht
      · rw [ht, List.drop_eq_nil_iff] at hdrop; omega
      · rw [← List.head?_drop, hdrop] at h2; exact h2 ht
    refine ⟨out, ?_, hwf, rfl, by simp⟩
    cases fuel <;> simp only [Clean.copyElement, hstop, if_false] <;> rfl
  | cons c seg ih =>
    intro fuel r out hdrop hfuel hwf hbound
    have hc : c ≠ '/' := fun h => hns (by simp [h])
    have hns1 : '/' ∉ seg := fun h => hns (List.mem_cons_of_mem _ h)
    have hr : r < p.length := by
      by_contra h
      rw [List.drop_eq_nil_iff.2 (Nat.le_of_not_lt h)] at hdrop
      simp at hdrop
    have hpr : p[r]? = some c := by
      rw [← List.head?_drop, hdrop]; rfl
    have hdrop1 : p.drop (r + 1) = seg ++ t := by
      have := congrArg List.tail hdrop
      simpa using this
    simp only [List.length_cons] at hfuel hbound
    obtain ⟨fuel, rfl⟩ : ∃ k, fuel = k + 1 := ⟨fuel - 1, by omega⟩
    obtain ⟨out1, ha, hwf1, hw1, hc1⟩ := lazybuf.append_spec p out c hwf (by omega)
    obtain ⟨out2, hb, hwf2, hw2, hc2⟩ :=
      ih hns1 fuel (r + 1) out1 hdrop1 (by omega) hwf1 (by omega)
    refine ⟨out2, ?_, hwf2, ?_, ?_⟩
    · have hgo : r < p.length ∧ p[r]? ≠ some '/' := ⟨hr, by simp [hpr, hc]⟩
      have e : r + 1 + seg.length = r + (seg.length + 1) := by omega
      rw [e] at hb
      rw [Clean.copyElement, if_pos hgo]
      simp only [hpr, ha, hb, List.length_cons]
    · simp only [List.length_cons]; omega
    · simp [hc2, hc1]

theorem lazybuf.contents_setw (b : lazybuf) (w : Nat) (h : w ≤ b.w) :
    ({ b with w := w } : lazybuf).contents = b.contents.take w := by
  simp [lazybuf.contents, List.take_take, Nat.min_eq_left h]

theorem lazybuf.wf_setw (p : GoString) (b : lazybuf) (w : Nat) (hwf : b.Wf p) (h : w ≤ b.w) :
    ({ b with w := w } : lazybuf).Wf p :=
  ⟨hwf.1, hwf.2.1, Nat.le_trans h hwf.2.2⟩

/-- The `..` case on a rooted path with a non-empty stack: the inner loop stops
right after the previous element (or at the root). -/
theorem Clean.dotdot_spec (p : GoString) (out : lazybuf) (init : List (List Char))
    (seg : List Char) (hwf : out.Wf p) (hc : out.contents = render (init ++ [seg]))
    (hseg : IsElem seg) (hel : ∀ s ∈ init, IsElem s) :
    ∃ w, Clean.backtrack out 1 (out.w - 1) = some w ∧ w ≤ out.w ∧
      ({ out with w := w } : lazybuf).contents = render init := by
  have hlen := lazybuf.length_contents p out hwf
  rw [render_snoc] at hc
  have hw : out.w = (body init).length + 1 + seg.length := by
    rw [← hlen, hc]; simp; omega
  have hsl : 1 ≤ seg.length := List.length_pos.2 hseg.1
  have hmid : ∀ i, (body init).length < i → i ≤ out.w - 1 →
      ∃ c, out.index i = some c ∧ c ≠ '/' := by
    intro i h1 h2
    have hi : i - (body init).length - 1 < seg.length := by omega
    refine ⟨seg[i - (body init).length - 1], ?_, ?_⟩
    · rw [lazybuf.index_spec out i (by omega), hc,
        List.getElem?_append_right (Nat.le_of_lt h1)]
      obtain ⟨k, hk⟩ : ∃ k, i - (body init).length = k + 1 := ⟨i - (body init).length - 1, by omega⟩
      simp only [hk, List.getElem?_cons_succ, Nat.add_sub_cancel]
      exact List.getElem?_eq_getElem (by omega)
    · intro h
      exact hseg.2 (h ▸ List.getElem_mem _)
  by_cases hinit : init = []
  · subst hinit
    simp only [body, List.length_nil, Nat.zero_add] at hw hmid
    refine ⟨1, ?_, by omega, ?_⟩
    · exact Clean.backtrack_spec out 1 1 (out.w - 1) (by omega) (Nat.le_refl _)
        (fun i h1 h2 => hmid i (by omega) h2) (Or.inl rfl)
    · rw [lazybuf.contents_setw out 1 (by omega), hc]; rfl
  · have h2 := length_body_ge init hinit hel
    refine ⟨(body init).length, ?_, by omega, ?_⟩
    · refine Clean.backtrack_spec out 1 _ (out.w - 1) (by omega) (by omega) hmid (Or.inr ?_)
      rw [lazybuf.index_spec out _ (by omega), hc, List.getElem?_append_right (Nat.le_refl _)]
      simp
    · rw [lazybuf.contents_setw out _ (by omega), hc, List.take_left, render_of_ne_nil init hinit]

theorem Clean.loop_done (p : GoString) (rooted : Bool) (fuel r dotdot : Nat) (out : lazybuf)
    (hr : ¬ r < p.length) : Clean.loop p rooted fuel r out dotdot = some out := by
  cases fuel <;> simp [Clean.loop, hr]

/-- The main loop on a rooted path: it returns, and what it has written is the
rendering of the stack after all remaining elements have been applied. -/
theorem Clean.loop_spec (p : GoString) :
    ∀ (fuel r : Nat) (out : lazybuf) (stk : List (List Char)),
      Clean.Inv p r out stk → p.length - r ≤ fuel →
      ∃ out1, Clean.loop p true fuel r out 1 = some out1 ∧ out1.Wf p ∧
        out1.contents = render ((elems (p.drop r)).foldl step stk) := by
  intro fuel
  induction fuel with
  | zero =>
    intro r out stk hinv hf
    have hr : ¬ r < p.length := by omega
    have hd : p.drop r = [] := List.drop_eq_nil_iff.2 (by omega)
    exact ⟨out, Clean.loop_done p true 0 r 1 out hr, hinv.1, by simp [hd, elems, hinv.2.2.2.1]⟩
  | succ fuel ih =>
    intro r out stk hinv hf
    by_cases hr : r < p.length
    swap
    · have hd : p.drop r = [] := List.drop_eq_nil_iff.2 (by omega)
      exact ⟨out, Clean.loop_done p true _ r 1 out hr, hinv.1,
        by simp [hd, elems, hinv.2.2.2.1]⟩
    obtain ⟨hwf, hwr, hbd, hcont, hel⟩ := hinv
    have hwlen := lazybuf.length_contents p out hwf
    obtain ⟨c, hpr⟩ : ∃ c, p[r]? = some c := ⟨p[r], List.getElem?_eq_getElem hr⟩
    have hdrop : p.drop r = c :: p.drop (r + 1) := by
      rw [List.drop_eq_getElem_cons hr]
      congr 1
      have := List.getElem?_eq_getElem hr
      rw [hpr] at this
      exact (Option.some.inj this).symm
    have hhead : ∀ k, p[k]? = (p.drop k).head? := fun k => (List.head?_drop p k).symm
    by_cases h1 : c = '/'
    · -- empty path element
      obtain ⟨o, ho, hw, hc⟩ := ih (r + 1) out stk
        ⟨hwf, by omega, fun h => by omega, hcont, hel⟩ (by omega)
      refine ⟨o, ?_, hw, ?_⟩
      · rw [Clean.loop, if_pos hr, if_pos (by rw [hpr, h1])]; exact ho
      · rw [hc, hdrop, h1, elems_slash]
    have n1 : ¬ p[r]? = some '/' := by
      rw [hpr]; intro h; exact h1 (Option.some.inj h)
    by_cases h2 : p[r]? = some '.' ∧ (r + 1 = p.length ∨ p[r + 1]? = some '/')
    · -- . element
      have hc2 : c = '.' := by
        have := h2.1; rw [hpr] at this; exact Option.some.inj this
      have ht : p.drop (r + 1) = [] ∨ (p.drop (r + 1)).head? = some '/' := by
        rcases h2.2 with h | h
        · exact Or.inl (List.drop_eq_nil_iff.2 (by omega))
        · exact Or.inr (by rw [← hhead]; exact h)
      obtain ⟨o, ho, hw, hc⟩ := ih (r + 1) out stk
        ⟨hwf, by omega, fun h => by omega, hcont, hel⟩ (by omega)
      refine ⟨o, ?_, hw, ?_⟩
      · rw [Clean.loop, if_pos hr, if_neg n1, if_pos h2]; exact ho
      · have he : elems (p.drop r) = ['.'] :: elems (p.drop (r + 1)) := by
          rw [hdrop, hc2]
          exact elems_elem_append ['.'] _ ⟨by simp, by simp⟩ ht
        rw [hc, he, List.foldl_cons]
        simp [step]
    by_cases h3 : p[r]? = some '.' ∧ p[r + 1]? = some '.' ∧
        (r + 2 = p.length ∨ p[r + 2]? = some '/')
    · -- .. element
      have hc3 : c = '.' := by
        have := h3.1; rw [hpr] at this; exact Option.some.inj this
      have hr1 : r + 1 < p.length := by
        by_contra h
        have := h3.2.1
        rw [List.getElem?_eq_none (by omega)] at this
        exact Option.noConfusion this
      have hdrop1 : p.drop (r + 1) = '.' :: p.drop (r + 2) := by
        rw [List.drop_eq_getElem_cons hr1]
        congr 1
        have := List.getElem?_eq_getElem hr1
        rw [h3.2.1] at this
        exact (Option.some.inj this).symm
      have ht : p.drop (r + 2) = [] ∨ (p.drop (r + 2)).head? = some '/' := by
        rcases h3.2.2 with h | h
        · exact Or.inl (List.drop_eq_nil_iff.2 (by omega))
        · exact Or.inr (by rw [← hhead]; exact h)
      have he : elems (p.drop r) = ['.', '.'] :: elems (p.drop (r + 2)) := by
        rw [hdrop, hc3, hdrop1]
        exact elems_elem_append ['.', '.'] _ ⟨by simp, by simp⟩ ht
      have hst : step stk ['.', '.'] = stk.dropLast := by simp [step]
      by_cases hw1 : out.w > 1
      · -- can backtrack
        have hne : stk ≠ [] := by
          intro h
          rw [h, render_nil] at hcont
          rw [hcont] at hwlen
          simp at hwlen
          omega
        obtain ⟨init, seg, hstk⟩ : ∃ init seg, stk = init ++ [seg] := by
          rcases List.eq_nil_or_concat stk with h | h
          · exact absurd h hne
          · obtain ⟨L, b, hLb⟩ := h
            exact ⟨L, b, by simpa using hLb⟩
        have hel1 : ∀ s ∈ init, IsElem s := fun s hs => hel s (by rw [hstk]; simp [hs])
        obtain ⟨w, hb, hww, hcw⟩ := Clean.dotdot_spec p out init seg hwf (hstk ▸ hcont)
          (hel seg (by rw [hstk]; simp)) hel1
        obtain ⟨o, ho, hw, hc⟩ := ih (r + 2) { out with w := w } init
          ⟨lazybuf.wf_setw p out w hwf hww, by simp only; omega,
            fun h => by simp only at h; omega, hcw, hel1⟩ (by omega)
        refine ⟨o, ?_, hw, ?_⟩
        · rw [Clean.loop, if_pos hr, if_neg n1, if_neg h2, if_pos h3, if_pos hw1]
          simp only [hb]; exact ho
        · rw [hc, he, List.foldl_cons, hst, hstk, List.dropLast_concat]
      · -- at the root: nothing to remove
        have hnil : stk = [] := by
          apply (length_render_eq_one stk hel).1
          have : 1 ≤ (render stk).length := by
            unfold render; split
            · simp
            · rename_i h; have := length_body_ge stk h hel; omega
          have e : (render stk).length = out.w := by rw [← hcont]; exact hwlen
          omega
        obtain ⟨o, ho, hw, hc⟩ := ih (r + 2) out stk
          ⟨hwf, by omega, fun h => by omega, hcont, hel⟩ (by omega)
        refine ⟨o, ?_, hw, ?_⟩
        · rw [Clean.loop, if_pos hr, if_neg n1, if_neg h2, if_pos h3, if_neg hw1,
            if_neg (by simp)]
          exact ho
        · rw [hc, he, List.foldl_cons, hst, hnil]; rfl
    · -- real path element
      obtain ⟨seg, t, hl, hns, ht, hne⟩ := span_elem (p.drop r)
      have hsegne : seg ≠ [] := hne c _ hdrop h1
      have hseg : IsElem seg := ⟨hsegne, hns⟩
      have hsl : 1 ≤ seg.length := List.length_pos.2 hsegne
      have hlen : r + seg.length + t.length = p.length := by
        have := congrArg List.length hl
        simp at this; omega
      have hdropt : p.drop (r + seg.length) = t := by
        rw [← List.drop_drop, hl, List.drop_left]
      have hnd1 : seg ≠ ['.'] := by
        intro h
        rw [h, hdrop] at hl
        simp only [List.singleton_append, List.cons.injEq] at hl
        apply h2
        refine ⟨by rw [hpr, hl.1], ?_⟩
        rcases ht with ht | ht
        · left
          have := List.drop_eq_nil_iff.1 (hl.2.trans ht)
          omega
        · right; rw [hhead, hl.2]; exact ht
      have hnd2 : seg ≠ ['.', '.'] := by
        intro h
        rw [h, hdrop] at hl
        simp only [List.cons_append, List.nil_append, List.cons.injEq] at hl
        have hd1 : p.drop (r + 1 + 1) = t := by
          rw [← List.drop_drop, hl.2]; rfl
        apply h3
        refine ⟨by rw [hpr, hl.1], by rw [hhead, hl.2]; rfl, ?_⟩
        rcases ht with ht | ht
        · left
          have := List.drop_eq_nil_iff.1 (hd1.trans ht)
          have hlen2 : r + 2 + t.length = p.length := by
            rw [h] at hlen; simpa using hlen
          omega
        · right; rw [hhead, hd1]; exact ht
      have hst : step stk seg = stk ++ [seg] := by simp [step, hnd1, hnd2]
      have he : elems (p.drop r) = seg :: elems t := by
        rw [hl]; exact elems_elem_append seg t hseg ht
      -- add slash if needed
      have hslash : ∃ out1,
          ((out.w = 1 ∧ out1 = out) ∨ (out.w ≠ 1 ∧ out.append '/' = some out1)) ∧ out1.Wf p ∧
          out1.w + seg.length ≤ r + seg.length ∧
          out1.contents ++ seg = render (stk ++ [seg]) := by
        by_cases hw1 : out.w = 1
        · have hnil : stk = [] := by
            apply (length_render_eq_one stk hel).1
            rw [← hcont, hwlen]; exact hw1
          refine ⟨out, Or.inl ⟨hw1, rfl⟩, hwf, by omega, ?_⟩
          rw [hcont, hnil]; simp [render, body]
        · have hne1 : stk ≠ [] := by
            intro h
            rw [h, render_nil] at hcont
            rw [hcont] at hwlen
            exact hw1 hwlen.symm
          have hwlt : out.w < r := by
            rcases Nat.lt_or_ge out.w r with h | h
            · exact h
            · exfalso
              have hweq : out.w = r := by omega
              rcases hbd hweq with h | h | h
              · rw [hdrop] at h; exact List.cons_ne_nil _ _ h
              · rw [hdrop] at h; exact h1 (Option.some.inj h)
              · omega
          obtain ⟨out1, ha, hwf1, hw1', hc1⟩ := lazybuf.append_spec p out '/' hwf (by omega)
          refine ⟨out1, Or.inr ⟨hw1, ha⟩, hwf1, by omega, ?_⟩
          rw [hc1, hcont, render_of_ne_nil stk hne1, render_snoc]; simp
      obtain ⟨out1, hs1, hwf1, hwb, hc1⟩ := hslash
      -- copy element
      obtain ⟨out2, hcp, hwf2, hw2, hc2⟩ := Clean.copyElement_spec p seg t hns ht p.length r out1
        hl (by omega) hwf1 (by omega)
      obtain ⟨o, ho, hw, hc⟩ := ih (r + seg.length) out2 (stk ++ [seg])
        ⟨hwf2, by omega, fun _ => by
            rw [hdropt]
            rcases ht with h | h
            · exact Or.inl h
            · exact Or.inr (Or.inl h),
          by rw [hc2, hc1], fun s hs => by
            rcases List.mem_append.1 hs with h | h
            · exact hel s h
            · rw [List.mem_singleton.1 h]; exact hseg⟩ (by omega)
      refine ⟨o, ?_, hw, ?_⟩
      · rw [Clean.loop, if_pos hr, if_neg n1, if_neg h2, if_neg h3]
        rcases hs1 with ⟨hw1, rfl⟩ | ⟨hw1, ha⟩
        · rw [if_neg (by simp [hw1])]
          simp only [hcp]; exact ho
        · rw [if_pos (by simp [hw1])]
          simp only [ha, hcp]; exact ho
      · rw [hc, hdropt, he, List.foldl_cons, hst]

theorem render_ne_nil (stk : List (List Char)) : render stk ≠ [] := by
  unfold render
  split
  · simp
  · cases stk with
    | nil => contradiction
    | cons x stk => simp [body]

/-- `Clean` returns on every rooted path, with the kept elements rendered from
the root. -/
theorem Clean_rooted (rest : List Char) :
    Clean ('/' :: rest) = some (render (kept rest)) := by
  have happ : ({ s := '/' :: rest, buf := none, w := 0 } : lazybuf).append '/'
      = some { s := '/' :: rest, buf := none, w := 1 } := by
    simp [lazybuf.append]
  have hinv : Clean.Inv ('/' :: rest) 1 { s := '/' :: rest, buf := none, w := 1 } [] :=
    ⟨⟨rfl, by simp, by simp⟩, Nat.le_refl _, fun _ => Or.inr (Or.inr rfl),
      by simp [lazybuf.contents, render], by simp⟩
  obtain ⟨o, ho, hwf, hc⟩ := Clean.loop_spec ('/' :: rest) ('/' :: rest).length 1 _ [] hinv
    (by omega)
  have hw : o.w ≠ 0 := by
    intro h
    have hl := lazybuf.length_contents _ o hwf
    rw [h, hc] at hl
    exact render_ne_nil _ (List.length_eq_zero.1 hl)
  unfold Clean
  rw [if_neg (by simp)]
  simp only [List.getElem?_cons_zero, decide_True, if_true, happ, Option.map_some', ho,
    if_neg hw]
  rw [lazybuf.string_spec _ o hwf, hc]
  simp [kept]

end path

namespace tensile

theorem kept_slash (s : List Char) : kept ('/' :: s) = kept s := by
  simp [kept, elems_slash]

end tensile

/-! ## The closed form of `cleanPath` -/

namespace tensile

theorem elems_isElem (l : List Char) : ∀ seg ∈ elems l, IsElem seg := by
  induction l with
  | nil => simp [elems]
  | cons c t ih =>
    intro seg hseg
    rw [elems] at hseg
    split at hseg
    · exact ih seg hseg
    · rename_i hc
      split at hseg
      · rcases List.mem_cons.1 hseg with h | h
        · rw [h]; exact ⟨by simp, by simpa using Ne.symm hc⟩
        · exact ih seg h
      · split at hseg
        · rename_i e es he
          rcases List.mem_cons.1 hseg with h | h
          · have hE : IsElem e := ih e (by rw [he]; simp)
            rw [h]
            refine ⟨by simp, ?_⟩
            intro hm
            rcases List.mem_cons.1 hm with h1 | h1
            · exact hc h1.symm
            · exact hE.2 h1
          · exact ih seg (by rw [he]; simp [h])
        · rw [List.mem_singleton.1 hseg]
          exact ⟨by simp, by simpa using Ne.symm hc⟩

theorem foldl_step_isClean (segs : List (List Char)) :
    ∀ stk : List (List Char), (∀ s ∈ stk, IsClean s) → (∀ s ∈ segs, IsElem s) →
      ∀ s ∈ segs.foldl step stk, IsClean s := by
  induction segs with
  | nil => intro stk h _; simpa using h
  | cons seg segs ih =>
    intro stk hstk hsegs
    rw [List.foldl_cons]
    apply ih
    · intro s hs
      unfold step at hs
      split at hs
      · exact hstk s hs
      · split at hs
        · exact hstk s (List.mem_of_mem_dropLast hs)
        · rename_i h1 h2
          rcases List.mem_append.1 hs with h | h
          · exact hstk s h
          · rw [List.mem_singleton.1 h]
            exact ⟨hsegs seg (by simp), h1, h2⟩
    · intro s hs
      exact hsegs s (by simp [hs])

theorem kept_isClean (s : List Char) : ∀ seg ∈ kept s, IsClean seg :=
  foldl_step_isClean (elems s) [] (by simp) (elems_isElem s)

theorem render_eq_root_iff (stk : List (List Char)) (hel : ∀ seg ∈ stk, IsElem seg) :
    render stk = ['/'] ↔ stk = [] := by
  constructor
  · intro h
    exact (length_render_eq_one stk hel).1 (by rw [h]; rfl)
  · rintro rfl; rfl

/-- `cleanPath` returns on every input, with the closed form `canon`. -/
theorem cleanPath_eq (s : List Char) : cleanPath s = some (canon s) := by
  cases s with
  | nil => simp [cleanPath, canon, kept, elems, render]
  | cons c s =>
    have hroot : ∀ l : List Char, render (kept l) ≠ ['/'] ↔ kept l ≠ [] := fun l =>
      not_congr (render_eq_root_iff _ (fun seg h => (kept_isClean l seg h).1))
    unfold cleanPath
    rw [if_neg (by simp)]
    by_cases hc : c = '/'
    · subst hc
      simp only [List.getElem?_cons_zero, ne_eq, not_true_eq_false, if_false,
        path.Clean_rooted]
      have hlast : ('/' :: s)[('/' :: s).length - 1]? = ('/' :: s).getLast? :=
        (List.getLast?_eq_getElem? _).symm
      rw [hlast]
      simp only [canon, kept_slash, ← ne_eq, hroot]
      split <;> rfl
    · have hh : (c :: s)[0]? ≠ some '/' := by simpa using hc
      simp only [if_pos hh, path.Clean_rooted]
      have hlast : ('/' :: c :: s)[('/' :: c :: s).length - 1]? = (c :: s).getLast? := by
        rw [← List.getLast?_eq_getElem?, List.getLast?_cons_cons]
      rw [hlast]
      simp only [canon, ← ne_eq, hroot]
      split <;> rfl

theorem head_body (stk : List (List Char)) (t : List Char)
    (ht : t = [] ∨ t.head? = some '/') :
    body stk ++ t = [] ∨ (body stk ++ t).head? = some '/' := by
  cases stk with
  | nil => simpa [body] using ht
  | cons x stk => right; simp [body]

theorem elems_body_append (stk : List (List Char)) (t : List Char)
    (hel : ∀ seg ∈ stk, IsElem seg) (ht : t = [] ∨ t.head? = some '/') :
    elems (body stk ++ t) = stk ++ elems t := by
  induction stk with
  | nil => simp [body]
  | cons x stk ih =>
    have ih1 := ih (fun seg h => hel seg (by simp [h]))
    have hx : IsElem x := hel x (by simp)
    show elems ('/' :: (x ++ body stk) ++ t) = _
    rw [List.cons_append, elems_slash, List.append_assoc,
      elems_elem_append x _ hx (head_body stk t ht), ih1]
    rfl

theorem foldl_step_clean (stk : List (List Char)) :
    ∀ acc : List (List Char), (∀ seg ∈ stk, IsClean seg) → stk.foldl step acc = acc ++ stk := by
  induction stk with
  | nil => intro acc _; simp
  | cons x stk ih =>
    intro acc h
    have hx : IsClean x := h x (by simp)
    rw [List.foldl_cons, ih _ (fun seg hs => h seg (by simp [hs]))]
    simp [step, hx.2.1, hx.2.2]

theorem kept_render (stk : List (List Char)) (h : ∀ seg ∈ stk, IsClean seg) :
    kept (render stk) = stk := by
  have hel : ∀ seg ∈ stk, IsElem seg := fun seg hs => (h seg hs).1
  by_cases hn : stk = []
  · subst hn; simp [kept, render, elems]
  · have := elems_body_append stk [] hel (Or.inl rfl)
    rw [List.append_nil] at this
    have he : elems ([] : List Char) = [] := by simp [elems]
    rw [render_of_ne_nil stk hn, kept, this, he, List.append_nil, foldl_step_clean stk [] h]
    rfl

theorem kept_render_slash (stk : List (List Char)) (h : ∀ seg ∈ stk, IsClean seg)
    (hn : stk ≠ []) : kept (render stk ++ ['/']) = stk := by
  have hel : ∀ seg ∈ stk, IsElem seg := fun seg hs => (h seg hs).1
  have he : elems ['/'] = [] := by simp [elems]
  rw [render_of_ne_nil stk hn, kept, elems_body_append stk ['/'] hel (Or.inr rfl), he,
    List.append_nil, foldl_step_clean _ [] h]
  rfl

theorem getLast_body (stk : List (List Char)) (hel : ∀ seg ∈ stk, IsElem seg)
    (hn : stk ≠ []) : (body stk).getLast? ≠ some '/' := by
  rcases List.eq_nil_or_concat stk with h | ⟨init, seg, h⟩
  · exact absurd h hn
  · rw [List.concat_eq_append] at h
    have hseg : IsElem seg := hel seg (by rw [h]; simp)
    rw [h, body_append]
    have hb : body [seg] = '/' :: seg := by simp [body]
    rw [hb, List.getLast?_append_of_ne_nil _ (by simp)]
    obtain ⟨a, l, hal⟩ := List.exists_cons_of_ne_nil hseg.1
    rw [hal, List.getLast?_cons_cons]
    intro hlast
    have : '/' ∈ (a :: l) := List.mem_of_getLast?_eq_some hlast
    exact hseg.2 (hal ▸ this)

theorem getLast_render (stk : List (List Char)) (hel : ∀ seg ∈ stk, IsElem seg) :
    (render stk).getLast? = some '/' ↔ stk = [] := by
  constructor
  · intro h
    by_contra hn
    rw [render_of_ne_nil stk hn] at h
    exact getLast_body stk hel hn h
  · rintro rfl; rfl

/-- The closed form is idempotent. -/
theorem canon_idem (s : List Char) : canon (canon s) = canon s := by
  have hcl := kept_isClean s
  have hel : ∀ seg ∈ kept s, IsElem seg := fun seg h => (hcl seg h).1
  by_cases hA : s.getLast? = some '/' ∧ kept s ≠ []
  · have h1 : canon s = render (kept s) ++ ['/'] := by simp only [canon, if_pos hA]
    rw [h1]
    have hk := kept_render_slash (kept s) hcl hA.2
    simp only [canon, hk, List.getLast?_concat, true_and]
    rw [if_pos hA.2]
  · have h1 : canon s = render (kept s) := by simp only [canon, if_neg hA]
    rw [h1]
    have hk := kept_render (kept s) hcl
    simp only [canon, hk]
    rw [if_neg]
    rintro ⟨h2, h3⟩
    exact h3 ((getLast_render _ hel).1 h2)

theorem intercalate_cons_body (stk : List (List Char)) :
    ∀ x : List Char, List.intercalate ['/'] (x :: stk) = x ++ body stk := by
  induction stk with
  | nil => intro x; simp [List.intercalate, body]
  | cons y stk ih =>
    intro x
    have := ih y
    simp only [List.intercalate, List.intersperse, List.flatten_cons] at this ⊢
    rw [this]
    simp [body]

theorem splitOn_body (L : List (List Char)) (h : ∀ l ∈ L, '/' ∉ l) :
    (body L).splitOn '/' = [] :: L := by
  have := List.splitOn_intercalate ([] :: L) '/'
    (fun l hl => by
      rcases List.mem_cons.1 hl with h1 | h1
      · rw [h1]; simp
      · exact h l h1) (by simp)
  rwa [intercalate_cons_body, List.nil_append] at this

theorem no_dslash_elem (seg u : List Char) (hseg : '/' ∉ seg) (hu : ¬ ['/', '/'] <:+: u) :
    ¬ ['/', '/'] <:+: seg ++ u := by
  induction seg with
  | nil => simpa using hu
  | cons c seg ih =>
    have hc : c ≠ '/' := fun h => hseg (by simp [h])
    rw [List.cons_append, List.infix_cons_iff]
    rintro (h | h)
    · rw [List.cons_prefix_cons] at h
      exact hc h.1.symm
    · exact ih (fun hm => hseg (List.mem_cons_of_mem _ hm)) h

theorem no_dslash_body (stk : List (List Char)) (t : List Char)
    (hel : ∀ seg ∈ stk, IsElem seg) (ht : t = [] ∨ t = ['/']) :
    ¬ ['/', '/'] <:+: body stk ++ t := by
  induction stk with
  | nil =>
    intro h
    have := h.length_le
    rcases ht with rfl | rfl <;> simp [body] at this
  | cons x stk ih =>
    have hx : IsElem x := hel x (by simp)
    have ih1 := ih (fun seg h => hel seg (by simp [h]))
    show ¬ ['/', '/'] <:+: '/' :: (x ++ body stk) ++ t
    rw [List.cons_append, List.append_assoc, List.infix_cons_iff]
    rintro (h | h)
    · rw [List.cons_prefix_cons] at h
      obtain ⟨a, l, hal⟩ := List.exists_cons_of_ne_nil hx.1
      rw [hal, List.cons_append, List.cons_prefix_cons] at h
      exact hx.2 (by rw [hal, ← h.2.1]; simp)
    · exact no_dslash_elem x _ hx.2 ih1 h

/-- Shape of the closed form: a rendered stack of clean elements, with a final
`/` only after a non-empty stack. -/
theorem canon_shape (s : List Char) :
    ∃ stk : List (List Char), (∀ seg ∈ stk, IsClean seg) ∧
      (canon s = render stk ∨ (stk ≠ [] ∧ canon s = render stk ++ ['/'])) := by
  refine ⟨kept s, kept_isClean s, ?_⟩
  unfold canon
  split
  · rename_i h; exact Or.inr ⟨h.2, rfl⟩
  · exact Or.inl rfl

theorem canon_head (s : List Char) : (canon s).head? = some '/' := by
  obtain ⟨stk, _, h | ⟨hn, h⟩⟩ := canon_shape s
  · rw [h]
    cases stk with
    | nil => rfl
    | cons x stk => simp [render, body]
  · rw [h]
    cases stk with
    | nil => exact absurd rfl hn
    | cons x stk => simp [render, body]

theorem canon_no_dslash (s : List Char) : ¬ ['/', '/'] <:+: canon s := by
  obtain ⟨stk, hcl, h | ⟨hn, h⟩⟩ := canon_shape s
  · rw [h]
    by_cases hn : stk = []
    · subst hn
      intro hi
      have := hi.length_le
      simp [render] at this
    · rw [render_of_ne_nil stk hn]
      have := no_dslash_body stk [] (fun seg hs => (hcl seg hs).1) (Or.inl rfl)
      rwa [List.append_nil] at this
  · rw [h, render_of_ne_nil stk hn]
    exact no_dslash_body stk ['/'] (fun seg hs => (hcl seg hs).1) (Or.inr rfl)

theorem canon_no_dot (s : List Char) :
    ∀ seg ∈ (canon s).splitOn '/', seg ≠ ['.'] ∧ seg ≠ ['.', '.'] := by
  obtain ⟨stk, hcl, h | ⟨hn, h⟩⟩ := canon_shape s
  · by_cases hn : stk = []
    · subst hn
      rw [h]
      have : render [] = body [[]] := by simp [render, body]
      rw [this, splitOn_body [[]] (by simp)]
      intro seg hseg
      simp at hseg
      subst hseg
      exact ⟨by simp, by simp⟩
    · rw [h, render_of_ne_nil stk hn, splitOn_body stk (fun l hl => (hcl l hl).1.2)]
      intro seg hseg
      rcases List.mem_cons.1 hseg with h1 | h1
      · subst h1; exact ⟨by simp, by simp⟩
      · exact (hcl seg h1).2
  · have hb : render stk ++ ['/'] = body (stk ++ [[]]) := by
      rw [render_of_ne_nil stk hn, body_append]; simp [body]
    rw [h, hb, splitOn_body _ (by
      intro l hl
      rcases List.mem_append.1 hl with h1 | h1
      · exact (hcl l h1).1.2
      · rw [List.mem_singleton.1 h1]; simp)]
    intro seg hseg
    rcases List.mem_cons.1 hseg with h1 | h1
    · subst h1; exact ⟨by simp, by simp⟩
    · rcases List.mem_append.1 h1 with h2 | h2
      · exact (hcl seg h2).2
      · rw [List.mem_singleton.1 h2]; exact ⟨by simp, by simp⟩

end tensile

/-! ## Properties of `cleanPath` -/

namespace tensile

/-- `cleanPath` returns a value on every input. -/
theorem cleanPath_returns (s : GoString) : ∃ t, cleanPath s = some t :=
  ⟨canon s, cleanPath_eq s⟩

/-- C1: canonicalization is idempotent: for every string `s`, `cleanPath s`
returns some `t`, and `cleanPath t` returns `t` again. -/
theorem cleanPath_idempotent (s : GoString) :
    ∃ t, cleanPath s = some t ∧ cleanPath t = some t :=
  ⟨canon s, cleanPath_eq s, by rw [cleanPath_eq, canon_idem]⟩

/-- C3, as stated, fails at `"."`: a non-empty string that does not end in `/`,
whose canonical form is the root `/`, which ends in `/`. -/
theorem cleanPath_dot_ends_in_slash :
    ".".toList ≠ [] ∧ ".".toList.getLast? ≠ some '/' ∧
      cleanPath ".".toList = some "/".toList ∧ "/".toList.getLast? = some '/' := by
  decide

/-- C3, amended: for every string `s`, `cleanPath s` returns some `t` such that:
if `s` ends in `/` then `t` ends in `/`; and if `s` is non-empty and does not end
in `/` then `t` is the root `/` or does not end in `/`. -/
theorem cleanPath_trailing_slash (s : GoString) :
    ∃ t, cleanPath s = some t ∧
      (s.getLast? = some '/' → t.getLast? = some '/') ∧
      (s ≠ [] → s.getLast? ≠ some '/' → t = ['/'] ∨ t.getLast? ≠ some '/') := by
  have hel : ∀ seg ∈ kept s, IsElem seg := fun seg h => (kept_isClean s seg h).1
  refine ⟨canon s, cleanPath_eq s, ?_, ?_⟩
  · intro h
    unfold canon
    split
    · exact List.getLast?_concat _
    · rename_i hn
      have : kept s = [] := by
        by_contra hk; exact hn ⟨h, hk⟩
      rw [this]; rfl
  · intro _ h
    have hc : canon s = render (kept s) := by
      unfold canon
      rw [if_neg (fun hh => h hh.1)]
    rw [hc]
    by_cases hk : kept s = []
    · left; rw [hk]; rfl
    · right
      intro hl
      exact hk ((getLast_render _ hel).1 hl)

/-- Witness for C3 (amended), at `"/a/b/"` and at `"a/.."`. -/
theorem cleanPath_trailing_slash_witness :
    (∃ t, cleanPath "/a/b/".toList = some t ∧ t.getLast? = some '/') ∧
      (∃ t, cleanPath "a/..".toList = some t ∧ (t = ['/'] ∨ t.getLast? ≠ some '/')) := by
  constructor
  · obtain ⟨t, h1, h2, _⟩ := cleanPath_trailing_slash "/a/b/".toList
    exact ⟨t, h1, h2 (by decide)⟩
  · obtain ⟨t, h1, _, h3⟩ := cleanPath_trailing_slash "a/..".toList
    exact ⟨t, h1, h3 (by decide) (by decide)⟩

/-- C7: for every string `s`, `cleanPath s` returns some `t` that begins with
`/`, contains no `//`, and has no `.` or `..` among its `/`-separated segments;
`/a/b/`, `//a//b/` and `/a/./b/` all map to `/a/b/`; `/a` and `/a/` map to the
different forms `/a` and `/a/`; a `..` above the root is clamped at the root. -/
theorem cleanPath_canonical_form :
    (∀ s : GoString, ∃ t, cleanPath s = some t ∧ t.head? = some '/' ∧
        ¬ ['/', '/'] <:+: t ∧ ∀ seg ∈ t.splitOn '/', seg ≠ ['.'] ∧ seg ≠ ['.', '.']) ∧
      cleanPath "/a/b/".toList = some "/a/b/".toList ∧
      cleanPath "//a//b/".toList = some "/a/b/".toList ∧
      cleanPath "/a/./b/".toList = some "/a/b/".toList ∧
      cleanPath "/a".toList = some "/a".toList ∧
      cleanPath "/a/".toList = some "/a/".toList ∧
      "/a".toList ≠ "/a/".toList ∧
      cleanPath "/..".toList = some "/".toList ∧
      cleanPath "/a/../../b".toList = some "/b".toList := by
  refine ⟨fun s => ⟨canon s, cleanPath_eq s, canon_head s, canon_no_dslash s, canon_no_dot s⟩,
    ?_, ?_, ?_, ?_, ?_, ?_, ?_, ?_⟩ <;> decide

end tensile

/-! ## Properties of the multiplexer -/

namespace tensile

theorem wrap_eq_foldr (middleware : List (http.Handler → http.Handler)) :
    ∀ (k : Nat) (hk : k ≤ middleware.length) (h : http.Handler),
      Mux.ServeHTTP.wrap middleware k hk h = (middleware.take k).foldr (fun m g => m g) h := by
  intro k
  induction k with
  | zero => intro _ h; rfl
  | succ k ih =>
    intro hk h
    have hlt : k < middleware.length := hk
    rw [Mux.ServeHTTP.wrap, ih, List.take_succ, List.getElem?_eq_getElem hlt]
    simp only [Option.toList, List.foldr_append, List.foldr_cons, List.foldr_nil]

theorem middleware_foldl_Use {node : Type} (uses : List (List (http.Handler → http.Handler))) :
    ∀ mux : Mux node, (uses.foldl Mux.Use mux).middleware = mux.middleware ++ uses.flatten ∧
      (uses.foldl Mux.Use mux).m = mux.m ∧ (uses.foldl Mux.Use mux).mu = mux.mu := by
  induction uses with
  | nil => intro mux; simp
  | cons u uses ih =>
    intro mux
    obtain ⟨h1, h2, h3⟩ := ih (mux.Use u)
    rw [List.foldl_cons, h1, h2, h3]
    simp [Mux.Use]

theorem ServeHTTP_dispatch {node Entry : Type} (T : Trie node Entry) (mux : Mux node)
    (w : http.ResponseWriter) (r : http.Request) (hr : r.RequestURI ≠ ['*']) :
    (mux.ServeHTTP T w r).1 =
      (mux.middleware.foldr (fun m g => m g) (mux.Handler T r).1.1) w (mux.Handler T r).1.2 := by
  have hmw : (mux.Handler T r).2.middleware = mux.middleware := by
    unfold Mux.Handler
    dsimp only
    generalize T.match_ _ _ _ = res
    rcases res with ⟨_ | e, r1⟩ <;> rfl
  unfold Mux.ServeHTTP
  rw [if_neg hr]
  simp only [wrap_eq_foldr, List.take_length, hmw]

/-- C2: middleware composition order is the append order.  After any sequence
of `Use` calls on a `Mux`, the middleware stack is the previous stack followed by
the arguments concatenated in call order (on a new `Mux`: exactly `m1, ..., mn`),
and for a request whose request-URI is not `*`, `ServeHTTP` gives the effect of
`m1 (m2 (... (mn h)))` on `(w, r1)`, where `(h, r1)` is what `Handler` returns;
with `Use(m1); Use(m2)` this is `m1 (m2 h)`. -/
theorem middleware_order {node Entry : Type} (T : Trie node Entry) (mux : Mux node)
    (uses : List (List (http.Handler → http.Handler))) (m1 m2 : http.Handler → http.Handler)
    (w : http.ResponseWriter) (r : http.Request) (hr : r.RequestURI ≠ ['*']) :
    (uses.foldl Mux.Use mux).middleware = mux.middleware ++ uses.flatten ∧
      (uses.foldl Mux.Use (New : Mux node)).middleware = uses.flatten ∧
      ((uses.foldl Mux.Use mux).ServeHTTP T w r).1 =
        ((mux.middleware ++ uses.flatten).foldr (fun m g => m g)
          ((uses.foldl Mux.Use mux).Handler T r).1.1) w
          ((uses.foldl Mux.Use mux).Handler T r).1.2 ∧
      ((((New : Mux node).Use [m1]).Use [m2]).ServeHTTP T w r).1 =
        m1 (m2 ((((New : Mux node).Use [m1]).Use [m2]).Handler T r).1.1) w
          ((((New : Mux node).Use [m1]).Use [m2]).Handler T r).1.2 := by
  refine ⟨(middleware_foldl_Use uses mux).1, ?_, ?_, ?_⟩
  · rw [(middleware_foldl_Use uses New).1]; rfl
  · rw [ServeHTTP_dispatch T _ w r hr, (middleware_foldl_Use uses mux).1]
  · rw [ServeHTTP_dispatch T _ w r hr]; rfl

/-- Witness for C2: on the trie modelled from the spec with a handler
registered at `/`, after `Use(m1); Use(m2)` a request for `/` runs `m1`, then
`m2`, then the handler. -/
theorem middleware_order_witness :
    (request "/" 1 1 "/").RequestURI ≠ ['*'] ∧
      ((([[logging "m1".toList], [logging "m2".toList]].foldl Mux.Use
          ((New : Mux SpecNode).Handle specTrie "/".toList (some (named "handler".toList))).2
        ).ServeHTTP specTrie [] (request "/" 1 1 "/")).1
        = [http.Call.Write "m1".toList, http.Call.Write "m2".toList,
            http.Call.Write "handler".toList]) := by
  refine ⟨by decide, ?_⟩
  rw [(middleware_order specTrie
    ((New : Mux SpecNode).Handle specTrie "/".toList (some (named "handler".toList))).2
    [[logging "m1".toList], [logging "m2".toList]] id id [] (request "/" 1 1 "/")
    (by decide)).2.2.1]
  rfl

/-- C4 fails on the code: `Handler` passes `r.URL.Path` to the trie's `match`
as received, while `Handle` stores the route under `cleanPath` of the pattern.
For the request path `//a`, whose canonical form is `/a`, the key that reaches
`match` is `//a`.  On the trie modelled from the spec, after `Handle("//a", h)`
the route is stored under `/a`; the request for `//a` gets the not-found handler,
and the request for `/a`, which has the same canonical form, gets `h`. -/
theorem Handler_passes_raw_path :
    cleanPath "//a".toList = some "/a".toList ∧
      cleanPath "/a".toList = some "/a".toList ∧
      "//a".toList ≠ "/a".toList ∧
      ((New : Mux Unit).Handler probeTrie (request "//a" 1 1 "//a")).1.1 []
          (request "//a" 1 1 "//a") = [http.Call.Write "//a".toList] ∧
      ((New : Mux Unit).Handler probeTrie (request "/a" 1 1 "/a")).1.1 []
          (request "/a" 1 1 "/a") = [http.Call.Write "/a".toList] ∧
      (((New : Mux SpecNode).Handle specTrie "//a".toList (some (named "h".toList))).2.m.map
        (fun n => n.map SpecEntry.pattern)) = some ["/a".toList] ∧
      (((New : Mux SpecNode).Handle specTrie "//a".toList (some (named "h".toList))).2.Handler
        specTrie (request "//a" 1 1 "//a")).1
        = (http.NotFoundHandler, request "//a" 1 1 "//a") ∧
      (((New : Mux SpecNode).Handle specTrie "//a".toList (some (named "h".toList))).2.Handler
        specTrie (request "/a" 1 1 "/a")).1.1 [] (request "/a" 1 1 "/a")
        = [http.Call.Write "h".toList] := by
  refine ⟨by decide, by decide, by decide, rfl, rfl, rfl, rfl, rfl⟩

/-- C5: `Handle` with an empty pattern or a nil handler panics instead of
returning an Entry, and leaves the trie (no root node is allocated, nothing is
inserted) and the middleware stack of the `Mux` as they were. -/
theorem Handle_misuse {node Entry : Type} (T : Trie node Entry) (mux : Mux node)
    (pattern : GoString) (h : Option http.Handler)
    (hbad : pattern = [] ∨ h = none) :
    (∃ v, (mux.Handle T pattern h).1 = Outcome.panicked v) ∧
      (mux.Handle T pattern h).2.m = mux.m ∧
      (mux.Handle T pattern h).2.middleware = mux.middleware := by
  by_cases hp : pattern = []
  · simp [Mux.Handle, hp, Mux.lockOp]
  · rcases hbad with h1 | h1
    · exact absurd h1 hp
    · subst h1
      simp [Mux.Handle, hp, Mux.lockOp]

/-- Witness for C5: on a new `Mux` over the trie modelled from the spec, the
empty pattern and the nil handler. -/
theorem Handle_misuse_witness :
    ((∃ v, ((New : Mux SpecNode).Handle specTrie [] (some (named "h".toList))).1
        = Outcome.panicked v) ∧
      ((New : Mux SpecNode).Handle specTrie [] (some (named "h".toList))).2.m = none) ∧
    ((∃ v, ((New : Mux SpecNode).Handle specTrie "/a".toList none).1
        = Outcome.panicked v) ∧
      ((New : Mux SpecNode).Handle specTrie "/a".toList none).2.m = none) := by
  have h1 := Handle_misuse specTrie (New : Mux SpecNode) [] (some (named "h".toList))
    (Or.inl rfl)
  have h2 := Handle_misuse specTrie (New : Mux SpecNode) "/a".toList none (Or.inr rfl)
  exact ⟨⟨h1.1, h1.2.1⟩, ⟨h2.1, h2.2.1⟩⟩

/-- C6: for a request whose request-URI is `*`, `ServeHTTP` calls
`WriteHeader(400)`, preceded by `Header().Set("Connection", "close")` if and only
if the protocol is at least HTTP/1.1, and nothing else: the result does not
depend on the trie, the routes or the middleware, and the `Mux` is untouched (no
route is resolved, no handler or middleware runs). -/
theorem ServeHTTP_asterisk {node Entry : Type} (T : Trie node Entry) (mux : Mux node)
    (w : http.ResponseWriter) (r : http.Request) (hr : r.RequestURI = ['*']) :
    (mux.ServeHTTP T w r).1 =
        w ++ ((if r.ProtoMajor > 1 ∨ (r.ProtoMajor = 1 ∧ r.ProtoMinor ≥ 1)
            then [http.Call.HeaderSet "Connection".toList "close".toList] else []) ++
          [http.Call.WriteHeader 400]) ∧
      (mux.ServeHTTP T w r).2.mu = mux.mu ∧
      (mux.ServeHTTP T w r).2.m = mux.m ∧
      (mux.ServeHTTP T w r).2.middleware = mux.middleware := by
  unfold Mux.ServeHTTP
  rw [if_pos hr]
  refine ⟨?_, rfl, rfl, rfl⟩
  by_cases hp : r.ProtoMajor > 1 ∨ (r.ProtoMajor = 1 ∧ r.ProtoMinor ≥ 1)
  · simp [http.Request.ProtoAtLeast, hp, http.ResponseWriter.HeaderSet,
      http.ResponseWriter.WriteHeader, http.StatusBadRequest]
  · simp [http.Request.ProtoAtLeast, hp, http.ResponseWriter.WriteHeader,
      http.StatusBadRequest]

/-- Witness for C6: request-URI `*` over HTTP/1.1 and over HTTP/1.0, on a `Mux`
with a route and a middleware. -/
theorem ServeHTTP_asterisk_witness :
    (request "*" 1 1 "").RequestURI = ['*'] ∧
      (((((New : Mux SpecNode).Handle specTrie "/".toList (some (named "h".toList))).2.Use
          [logging "m".toList]).ServeHTTP specTrie [] (request "*" 1 1 "")).1
        = [http.Call.HeaderSet "Connection".toList "close".toList,
            http.Call.WriteHeader 400]) ∧
      (((((New : Mux SpecNode).Handle specTrie "/".toList (some (named "h".toList))).2.Use
          [logging "m".toList]).ServeHTTP specTrie [] (request "*" 1 0 "")).1
        = [http.Call.WriteHeader 400]) := by
  refine ⟨rfl, ?_, ?_⟩
  · rw [(ServeHTTP_asterisk specTrie _ [] (request "*" 1 1 "") rfl).1]
    decide
  · rw [(ServeHTTP_asterisk specTrie _ [] (request "*" 1 0 "") rfl).1]
    decide

/-- C8, as stated, fails at a duplicate registration: on the trie modelled
from the spec, after `Handle("/a/b/", h1)` the call `Handle("//a//b/", h2)`, with
a non-empty pattern and a non-nil handler, panics in `add` instead of returning
an Entry, and nothing is inserted. -/
theorem Handle_duplicate_panics :
    "//a//b/".toList ≠ [] ∧
      cleanPath "//a//b/".toList = some "/a/b/".toList ∧
      (((New : Mux SpecNode).Handle specTrie "/a/b/".toList (some (named "h1".toList))).2.m.map
        (fun n => n.map SpecEntry.pattern)) = some ["/a/b/".toList] ∧
      ((((New : Mux SpecNode).Handle specTrie "/a/b/".toList (some (named "h1".toList))).2.Handle
        specTrie "//a//b/".toList (some (named "h2".toList))).1
        = Outcome.panicked "duplicate pattern".toList) ∧
      (((((New : Mux SpecNode).Handle specTrie "/a/b/".toList
          (some (named "h1".toList))).2.Handle
        specTrie "//a//b/".toList (some (named "h2".toList))).2.m.map
        (fun n => n.map SpecEntry.pattern)) = some ["/a/b/".toList]) := by
  refine ⟨by decide, by decide, rfl, rfl, rfl⟩

/-- C8, amended: for a non-empty pattern `p` and a non-nil handler `h`,
`cleanPath p` returns a key, and `Handle` builds the one Entry `newEntry(key, h)`,
calls the trie's `add` with that key (not with `p`) and that Entry on the root
node (a new one if the `Mux` had none), and stores the resulting node; when `add`
returns, `Handle` returns that same Entry, and when `add` panics, `Handle` panics
with the same value; for `p = "/a//b/"` the key is `/a/b/`. -/
theorem Handle_canonical_key {node Entry : Type} (T : Trie node Entry) (mux : Mux node)
    (p : GoString) (h : http.Handler) (hp : p ≠ []) :
    ∃ key, cleanPath p = some key ∧ cleanPath key = some key ∧
      (mux.Handle T p (some h)).2.m =
        some (T.add (mux.m.getD T.new) key (T.newEntry key h)).1 ∧
      (mux.Handle T p (some h)).1 =
        (match (T.add (mux.m.getD T.new) key (T.newEntry key h)).2 with
          | some v => Outcome.panicked v
          | none => Outcome.returned (T.newEntry key h)) ∧
      (mux.Handle T p (some h)).2.middleware = mux.middleware ∧
      cleanPath "/a//b/".toList = some "/a/b/".toList := by
  have hn : (match mux.m with | none => T.new | some n => n) = mux.m.getD T.new := by
    cases mux.m <;> rfl
  refine ⟨canon p, cleanPath_eq p, by rw [cleanPath_eq, canon_idem], ?_, ?_, ?_, by decide⟩
  · simp only [Mux.Handle, if_neg hp, cleanPath_eq, Mux.lockOp, hn]
    split <;> rfl
  · simp only [Mux.Handle, if_neg hp, cleanPath_eq, Mux.lockOp, hn]
    split <;> rfl
  · simp only [Mux.Handle, if_neg hp, cleanPath_eq, Mux.lockOp, hn]
    split <;> rfl

/-- Witness for C8 (amended): `Handle("/a//b/", h)` on a new `Mux` over the trie modelled
from the spec registers the entry under `/a/b/` and returns it. -/
theorem Handle_canonical_key_witness :
    "/a//b/".toList ≠ [] ∧
      (((New : Mux SpecNode).Handle specTrie "/a//b/".toList (some (named "h".toList))).2.m.map
        (fun n => n.map SpecEntry.pattern)) = some ["/a/b/".toList] ∧
      (match ((New : Mux SpecNode).Handle specTrie "/a//b/".toList (some (named "h".toList))).1 with
        | Outcome.returned e => e.pattern = "/a/b/".toList
        | Outcome.panicked _ => False) := by
  obtain ⟨key, hk, _, hm, ho, _, _⟩ := Handle_canonical_key specTrie (New : Mux SpecNode)
    "/a//b/".toList (named "h".toList) (by decide)
  have hkey : key = "/a/b/".toList := by
    have : cleanPath "/a//b/".toList = some "/a/b/".toList := by decide
    rw [this] at hk
    exact (Option.some.inj hk).symm
  subst hkey
  refine ⟨by decide, ?_, ?_⟩
  · rw [hm]; rfl
  · rw [ho]; rfl

/-- C9: whenever the trie's `match` returns no Entry for the request, `Handler`
returns the not-found handler together with the request it was given; on a `Mux`
without routes over the trie modelled from the spec this is so for every request;
and the not-found handler writes status 404. -/
theorem Handler_not_found :
    (∀ (node Entry : Type) (T : Trie node Entry) (mux : Mux node) (r : http.Request),
        (T.match_ mux.m r.Path r).1 = none →
        (mux.Handler T r).1 = (http.NotFoundHandler, r)) ∧
      (∀ r : http.Request,
        ((New : Mux SpecNode).Handler specTrie r).1 = (http.NotFoundHandler, r)) ∧
      (∀ (w : http.ResponseWriter) (r : http.Request),
        http.NotFoundHandler w r = w ++
          [http.Call.HeaderSet "Content-Type".toList "text/plain; charset=utf-8".toList,
            http.Call.HeaderSet "X-Content-Type-Options".toList "nosniff".toList,
            http.Call.WriteHeader 404,
            http.Call.Write "404 page not found\n".toList]) := by
  have h1 : ∀ (node Entry : Type) (T : Trie node Entry) (mux : Mux node) (r : http.Request),
      (T.match_ mux.m r.Path r).1 = none →
      (mux.Handler T r).1 = (http.NotFoundHandler, r) := by
    intro node Entry T mux r hnone
    unfold Mux.Handler
    dsimp only [Mux.lockOp]
    revert hnone
    generalize T.match_ _ _ _ = res
    rcases res with ⟨_ | e, r1⟩
    · intro _; rfl
    · intro hnone; exact Option.noConfusion hnone
  refine ⟨h1, fun r => h1 _ _ specTrie New r rfl, ?_⟩
  intro w r
  simp [http.NotFoundHandler, http.NotFound, http.Error, http.ResponseWriter.HeaderSet,
    http.ResponseWriter.WriteHeader, http.ResponseWriter.Write, http.StatusNotFound]

/-- Witness for C9: a request for `/other` on a `Mux` whose only route is the
exact pattern `/a`, over the trie modelled from the spec. -/
theorem Handler_not_found_witness :
    (specTrie.match_
        ((New : Mux SpecNode).Handle specTrie "/a".toList (some (named "h".toList))).2.m
        (request "/other" 1 1 "/other").Path (request "/other" 1 1 "/other")).1 = none ∧
      (((New : Mux SpecNode).Handle specTrie "/a".toList (some (named "h".toList))).2.Handler
        specTrie (request "/other" 1 1 "/other")).1
        = (http.NotFoundHandler, request "/other" 1 1 "/other") :=
  ⟨rfl, Handler_not_found.1 _ _ specTrie _ (request "/other" 1 1 "/other") rfl⟩

/-- C10 fails on the code: `Use` appends to the middleware stack without any
operation on the lock of the `Mux`, whereas `Handle` locks and unlocks it around
its update and `Handler` read-locks it around the lookup. -/
theorem Use_takes_no_lock {node Entry : Type} (T : Trie node Entry) (mux : Mux node)
    (middleware : List (http.Handler → http.Handler)) (pattern : GoString)
    (h : Option http.Handler) (r : http.Request) :
    (mux.Use middleware).mu = mux.mu ∧
      (mux.Use middleware).middleware = mux.middleware ++ middleware ∧
      (mux.Handle T pattern h).2.mu = mux.mu ++ [MutexOp.Lock, MutexOp.Unlock] ∧
      (mux.Handler T r).2.mu = mux.mu ++ [MutexOp.RLock, MutexOp.RUnlock] := by
  refine ⟨rfl, rfl, ?_, ?_⟩
  · unfold Mux.Handle
    dsimp only [Mux.lockOp]
    split
    · simp
    · split
      · simp
      · split
        · simp
        · split <;> simp
  · unfold Mux.Handler
    dsimp only [Mux.lockOp]
    generalize T.match_ _ _ _ = res
    rcases res with ⟨_ | e, r1⟩ <;> simp

end tensile
